import Mathlib

/-!
Verification development for the `vds` crate: a 31-character alphabet of
visibly distinguishable characters, a validated character type `VDChar`,
a validated string type `VDString`, and a configurable random generator
`VDGenerator`.  Rust strings are modelled as `List Char`, `u8`/`u32`/`usize`
values as `Nat` with explicit truncation where the source casts, fallible
operations as `Option`/`Except`, and the generator's possibly unbounded
with-replacement loop as a fuel-indexed function returning `none` when the
fuel is exhausted before the loop exits.  A randomness source (`RngCore`)
is modelled as the stream of values its successive `next_u32` calls return.
-/

namespace VDS

/-- The allowed characters, from `src/vdchar.rs` (`VDS_ALLOWED`): uppercase
Latin letters and digits minus the ambiguous glyphs `O`, `0`, `I`, `1`
(and also `L`). -/
def VDS_ALLOWED : List Char :=
  ['A', 'B', 'C', 'D', 'E', 'F', 'G', 'H', 'J', 'K',
   'M', 'N', 'P', 'Q', 'R', 'S', 'T', 'U', 'V', 'W',
   'X', 'Y', 'Z', '2', '3', '4', '5', '6', '7', '8', '9']

/-- A single validated character: wraps the `u8` index into `VDS_ALLOWED`
(`pub struct VDChar(pub(crate) u8)`). -/
structure VDChar where
  val : Nat
deriving DecidableEq

/-- The `i as u8` cast used at every `VDChar(_)` construction site in the
source: truncation modulo 256. -/
def VDChar.u8 (n : Nat) : VDChar := ⟨n % 256⟩

/-- The first index of a match in a list, as Rust's `Iterator::position`. -/
def position (p : Char → Bool) : List Char → Option Nat
  | [] => none
  | a :: l => if p a then some 0 else (position p l).map (fun i => i + 1)

/-- `VDChar::new`: `VDS_ALLOWED.iter().position(|&x| x == c).map(|i| Self(i as u8))`. -/
def VDChar.new (c : Char) : Option VDChar :=
  (position (fun x => x == c) VDS_ALLOWED).map (fun i => VDChar.u8 i)

/-- `VDChar::as_char`: `VDS_ALLOWED[self.0 as usize]`.  Rust panics on an
out-of-bounds index; the model returns the sentinel fallback in that case,
and the safety claims show the fallback is never reached. -/
def VDChar.as_char (v : VDChar) : Char := VDS_ALLOWED.getD v.val '?'

/-- `VDStringError` from `src/vdstring.rs`. -/
inductive VDStringError where
  | InvalidChar : Char → VDStringError
deriving DecidableEq

/-- `VDString` from `src/vdstring.rs`: the validated character sequence plus
the cached rendered text (the `String` cache is modelled as `List Char`). -/
structure VDString where
  chars : List VDChar
  cache : List Char
deriving DecidableEq

/-- `VDString::new`: caches `chars.iter().map(|c| c.as_char()).collect()`. -/
def VDString.new (chars : List VDChar) : VDString :=
  ⟨chars, chars.map VDChar.as_char⟩

/-- The character-by-character validation inside `VDString::from_str`:
`s.chars().map(|c| VDChar::new(c).ok_or(InvalidChar(c))).collect::<Result<Vec<_>,_>>()`,
which short-circuits at the leftmost failing character. -/
def parseVD : List Char → Except VDStringError (List VDChar)
  | [] => .ok []
  | c :: cs =>
    match VDChar.new c with
    | none => .error (.InvalidChar c)
    | some v => (parseVD cs).map (fun vs => v :: vs)

/-- `VDString::from_str` (also `TryFrom<&str>`): validate then `VDString::new`. -/
def VDString.from_str (s : List Char) : Except VDStringError VDString :=
  (parseVD s).map VDString.new

/-- `VDGeneratorError` from `src/generate.rs`. -/
inductive VDGeneratorError where
  | LengthExceedsUniqueSet : (requested : Nat) → (available : Nat) → VDGeneratorError
deriving DecidableEq

/-- `VDGenerator`: the builder configuration (length, adjacent-repeat flag,
any-repeat flag). -/
structure VDGenerator where
  len : Nat
  no_adjacent_repeats : Bool
  no_repeats : Bool
deriving DecidableEq

/-- `VDGenerator::new()`: length 6, both flags off. -/
def VDGenerator.mkNew : VDGenerator := ⟨6, false, false⟩

/-- A randomness source: the stream of raw values returned by successive
`next_u32` calls. -/
abbrev Rng := Nat → Nat

/-- The value of the `k`-th `rng.next_u32()` call: a `u32`, so truncated
modulo `2 ^ 32`. -/
def next_u32 (rng : Rng) (k : Nat) : Nat := rng k % 2 ^ 32

/-- `Vec::swap(i, j)` on a list, identity when an index is out of bounds
(the safety claims show both indices are always in bounds where the
generator calls it). -/
def listSwap (l : List VDChar) (i j : Nat) : List VDChar :=
  match l[i]?, l[j]? with
  | some a, some b => (l.set i b).set j a
  | _, _ => l

/-- The full pool `(0..VDS_ALLOWED.len()).map(|i| VDChar(i as u8)).collect()`. -/
def pool0 : List VDChar :=
  (List.range VDS_ALLOWED.length).map (fun i => VDChar.u8 i)

/-- The partial Fisher-Yates loop of `VDGenerator::generate`:
`for i in 0..len { let j = i + (rng.next_u32() as usize % (pool.len() - i)); pool.swap(i, j); }`.
`n` counts remaining iterations, `i` is the current position (and the index
of the next `next_u32` draw, since the loop is the first consumer of the
source). -/
def fyLoop (rng : Rng) : Nat → Nat → List VDChar → List VDChar
  | 0, _, pool => pool
  | n + 1, i, pool =>
    fyLoop rng n (i + 1) (listSwap pool i (i + next_u32 rng i % (pool.length - i)))

/-- `result.windows(2).any(|w| w[0] == w[1])`: is some adjacent pair equal. -/
def hasAdjDup : List VDChar → Bool
  | a :: b :: rest => decide (a = b) || hasAdjDup (b :: rest)
  | _ => false

/-- `Vec::rotate_left(1)`: move the head to the back. -/
def rot1 (l : List VDChar) : List VDChar := l.drop 1 ++ l.take 1

/-- The defensive repair loop in the `no_repeats` branch:
`for _ in 0..len { if result.windows(2).any(|w| w[0] == w[1]) { result.rotate_left(1); } else { break; } }`. -/
def rotLoop : Nat → List VDChar → List VDChar
  | 0, l => l
  | n + 1, l => if hasAdjDup l then rotLoop n (rot1 l) else l

/-- The `no_repeats` branch of `generate`: partial Fisher-Yates over the
full pool, take the first `len` entries, then the optional rotation repair. -/
def fyResult (cfg : VDGenerator) (rng : Rng) : List VDChar :=
  if cfg.no_adjacent_repeats = true then
    rotLoop cfg.len ((fyLoop rng cfg.len 0 pool0).take cfg.len)
  else
    (fyLoop rng cfg.len 0 pool0).take cfg.len

/-- The with-replacement sampling loop of `generate`:
`while result.len() < len { let idx = (rng.next_u32() as usize) % VDS_ALLOWED.len(); ... }`,
with rejection of a draw equal to the previous accepted character when
`no_adjacent_repeats` is set.  `k` is the index of the next `next_u32`
draw; the result also reports how many draws were consumed.  `fuel` bounds
the number of loop iterations modelled; `none` means the loop did not exit
within `fuel` iterations. -/
def wrLoop (cfg : VDGenerator) (rng : Rng) :
    Nat → Nat → List VDChar → Option VDChar → Option (List VDChar × Nat)
  | 0, k, acc, _ =>
    if acc.length < cfg.len then none else some (acc, k)
  | fuel + 1, k, acc, last =>
    if acc.length < cfg.len then
      if cfg.no_adjacent_repeats = true ∧ last = some (VDChar.u8 (next_u32 rng k % VDS_ALLOWED.length)) then
        wrLoop cfg rng fuel (k + 1) acc last
      else
        wrLoop cfg rng fuel (k + 1)
          (acc ++ [VDChar.u8 (next_u32 rng k % VDS_ALLOWED.length)])
          (some (VDChar.u8 (next_u32 rng k % VDS_ALLOWED.length)))
    else some (acc, k)

/-- `VDGenerator::generate`.  Returns `none` when the with-replacement loop
does not exit within `fuel` iterations (the Rust code would still be
looping); `some r` models the call returning `r`. -/
def VDGenerator.generate (cfg : VDGenerator) (rng : Rng) (fuel : Nat) :
    Option (Except VDGeneratorError VDString) :=
  if cfg.no_repeats = true ∧ VDS_ALLOWED.length < cfg.len then
    some (.error (.LengthExceedsUniqueSet cfg.len VDS_ALLOWED.length))
  else if cfg.no_repeats = true then
    some (.ok (VDString.new (fyResult cfg rng)))
  else
    (wrLoop cfg rng fuel 0 [] none).map (fun p => Except.ok (VDString.new p.1))

/-- The index expression of one Fisher-Yates draw at position `i`
(`i + (rng.next_u32() as usize % (pool.len() - i))`, with the pool length
always the alphabet size). -/
def fyDraw (i v : Nat) : Nat := i + v % (VDS_ALLOWED.length - i)

/-- The index expression of one with-replacement draw
(`(rng.next_u32() as usize) % VDS_ALLOWED.len()`). -/
def wrDraw (v : Nat) : Nat := v % VDS_ALLOWED.length

/-- Number of `u32` values mapped by a draw expression to a given target
index. -/
def u32Count (f : Nat → Nat) (r : Nat) : Nat :=
  Nat.count (fun v => f v = r) (2 ^ 32)

/-! Helper lemmas about the alphabet, `VDChar` and parsing. -/

theorem VDS_len : VDS_ALLOWED.length = 31 := rfl

theorem position_isSome_iff (p : Char → Bool) (l : List Char) :
    (position p l).isSome = true ↔ ∃ x ∈ l, p x = true := by
  induction l with
  | nil => simp [position]
  | cons a l ih =>
    by_cases h : p a = true
    · simp [position, h]
    · simp [position, h, ih]

theorem position_eq_some (p : Char → Bool) (l : List Char) :
    ∀ i, position p l = some i → ∃ h : i < l.length, p (l.get ⟨i, h⟩) = true := by
  induction l with
  | nil => intro i h; simp [position] at h
  | cons a l ih =>
    intro i h
    by_cases hpa : p a = true
    · simp [position, hpa] at h
      exact h ▸ ⟨Nat.succ_pos _, by simpa using hpa⟩
    · simp [position, hpa] at h
      obtain ⟨j, hj, rfl⟩ := h
      obtain ⟨hlt, hp⟩ := ih j hj
      exact ⟨Nat.succ_lt_succ hlt, by simpa using hp⟩

theorem new_isSome_iff (c : Char) :
    (VDChar.new c).isSome = true ↔ c ∈ VDS_ALLOWED := by
  have h : (VDChar.new c).isSome = (position (fun x => x == c) VDS_ALLOWED).isSome := by
    unfold VDChar.new
    cases position (fun x => x == c) VDS_ALLOWED <;> rfl
  rw [h, position_isSome_iff]
  simp

theorem new_some_spec {c : Char} {v : VDChar} (h : VDChar.new c = some v) :
    v.val < VDS_ALLOWED.length ∧ v.as_char = c := by
  unfold VDChar.new at h
  cases hp : position (fun x => x == c) VDS_ALLOWED with
  | none => rw [hp] at h; simp at h
  | some i =>
    rw [hp] at h
    simp only [Option.map_some'] at h
    obtain ⟨hlt, hpi⟩ := position_eq_some _ _ i hp
    have hlt31 : i < 31 := VDS_len ▸ hlt
    have hmod : i % 256 = i := Nat.mod_eq_of_lt (by omega)
    obtain rfl : VDChar.u8 i = v := by injection h
    have hv : (VDChar.u8 i).val = i := by simp [VDChar.u8, hmod]
    constructor
    · rw [hv]; exact hlt
    · rw [VDChar.as_char, hv, List.getD_eq_getElem?_getD,
        List.getElem?_eq_getElem hlt]
      simpa [List.get_eq_getElem, beq_iff_eq] using hpi

theorem as_char_mem {v : VDChar} (h : v.val < VDS_ALLOWED.length) :
    v.as_char ∈ VDS_ALLOWED := by
  rw [VDChar.as_char, List.getD_eq_getElem?_getD, List.getElem?_eq_getElem h]
  exact List.getElem_mem h

theorem parseVD_ok_iff (s : List Char) :
    (∃ l, parseVD s = .ok l) ↔ ∀ c ∈ s, (VDChar.new c).isSome = true := by
  induction s with
  | nil => simp [parseVD]
  | cons c cs ih =>
    constructor
    · rintro ⟨l, hl⟩
      intro a ha
      cases hnc : VDChar.new c with
      | none => simp [parseVD, hnc] at hl
      | some v =>
        rcases List.mem_cons.mp ha with rfl | ha2
        · simp [hnc]
        · cases hps : parseVD cs with
          | error e => simp [parseVD, hnc, hps, Except.map] at hl
          | ok l2 => exact (ih.mp ⟨l2, hps⟩) a ha2
    · intro hall
      obtain ⟨v, hv⟩ := Option.isSome_iff_exists.mp (hall c (by simp))
      obtain ⟨l2, hl2⟩ := ih.mpr (fun a ha => hall a (by simp [ha]))
      exact ⟨v :: l2, by simp [parseVD, hv, hl2, Except.map]⟩

theorem parseVD_map : ∀ (s : List Char) (l : List VDChar),
    parseVD s = .ok l → l.map VDChar.as_char = s := by
  intro s
  induction s with
  | nil => intro l h; simp only [parseVD] at h; cases h; rfl
  | cons c cs ih =>
    intro l h
    cases hnc : VDChar.new c with
    | none => simp [parseVD, hnc] at h
    | some v =>
      cases hps : parseVD cs with
      | error e => simp [parseVD, hnc, hps, Except.map] at h
      | ok l2 =>
        simp only [parseVD, hnc, hps, Except.map] at h
        cases h
        simp [List.map_cons, ih l2 hps, (new_some_spec hnc).2]

theorem parseVD_val_lt : ∀ (s : List Char) (l : List VDChar),
    parseVD s = .ok l → ∀ v ∈ l, v.val < VDS_ALLOWED.length := by
  intro s
  induction s with
  | nil => intro l h; simp only [parseVD] at h; cases h; simp
  | cons c cs ih =>
    intro l h
    cases hnc : VDChar.new c with
    | none => simp [parseVD, hnc] at h
    | some v =>
      cases hps : parseVD cs with
      | error e => simp [parseVD, hnc, hps, Except.map] at h
      | ok l2 =>
        simp only [parseVD, hnc, hps, Except.map] at h
        cases h
        intro w hw
        rcases List.mem_cons.mp hw with rfl | hw2
        · exact (new_some_spec hnc).1
        · exact ih l2 hps w hw2

theorem parseVD_leftmost : ∀ (s1 : List Char) (c : Char) (s2 : List Char),
    (∀ a ∈ s1, (VDChar.new a).isSome = true) → VDChar.new c = none →
    parseVD (s1 ++ c :: s2) = .error (.InvalidChar c) := by
  intro s1
  induction s1 with
  | nil => intro c s2 _ hc; simp [parseVD, hc]
  | cons a s1 ih =>
    intro c s2 hall hc
    obtain ⟨v, hv⟩ := Option.isSome_iff_exists.mp (hall a (by simp))
    have hrec := ih c s2 (fun b hb => hall b (by simp [hb])) hc
    simp [parseVD, hv, hrec, Except.map]

/-! Helper lemmas about the generator. -/

theorem listSwap_length (l : List VDChar) (i j : Nat) :
    (listSwap l i j).length = l.length := by
  unfold listSwap
  cases l[i]? <;> cases l[j]? <;> simp

theorem listSwap_mem {l : List VDChar} {a : VDChar} {i j : Nat}
    (h : a ∈ listSwap l i j) : a ∈ l := by
  unfold listSwap at h
  split at h
  · rename_i x y hi hj
    rcases List.mem_or_eq_of_mem_set h with h2 | rfl
    · rcases List.mem_or_eq_of_mem_set h2 with h3 | rfl
      · exact h3
      · obtain ⟨hlt, hl⟩ := List.getElem?_eq_some_iff.mp hj
        exact hl ▸ List.getElem_mem hlt
    · obtain ⟨hlt, hl⟩ := List.getElem?_eq_some_iff.mp hi
      exact hl ▸ List.getElem_mem hlt
  · exact h

theorem listSwap_nodup {l : List VDChar} (i j : Nat) (h : l.Nodup) :
    (listSwap l i j).Nodup := by
  unfold listSwap
  cases hi : l[i]? with
  | none => exact h
  | some x =>
    cases hj : l[j]? with
    | none => exact h
    | some y =>
      obtain ⟨hil, hix⟩ := List.getElem?_eq_some_iff.mp hi
      obtain ⟨hjl, hjy⟩ := List.getElem?_eq_some_iff.mp hj
      rw [List.nodup_iff_injective_getElem]
      rintro ⟨k1, hk1⟩ ⟨k2, hk2⟩ heq
      have hk1l : k1 < l.length := by simpa using hk1
      have hk2l : k2 < l.length := by simpa using hk2
      simp only [List.getElem_set] at heq
      apply Fin.ext
      simp only []
      subst hix hjy
      split_ifs at heq <;>
        first
          | omega
          | (have h2 := (List.Nodup.getElem_inj_iff h).mp heq; omega)

theorem pool0_length : pool0.length = 31 := by decide

theorem pool0_nodup : pool0.Nodup := by decide

theorem pool0_val_lt : ∀ v ∈ pool0, v.val < VDS_ALLOWED.length := by decide

theorem fyLoop_length (rng : Rng) : ∀ (n i : Nat) (pool : List VDChar),
    (fyLoop rng n i pool).length = pool.length := by
  intro n
  induction n with
  | zero => intro i pool; rfl
  | succ m ih => intro i pool; rw [fyLoop, ih, listSwap_length]

theorem fyLoop_nodup (rng : Rng) : ∀ (n i : Nat) (pool : List VDChar),
    pool.Nodup → (fyLoop rng n i pool).Nodup := by
  intro n
  induction n with
  | zero => intro i pool h; exact h
  | succ m ih => intro i pool h; exact ih _ _ (listSwap_nodup _ _ h)

theorem fyLoop_mem (rng : Rng) : ∀ (n i : Nat) (pool : List VDChar) (v : VDChar),
    v ∈ fyLoop rng n i pool → v ∈ pool := by
  intro n
  induction n with
  | zero => intro i pool v h; exact h
  | succ m ih => intro i pool v h; exact listSwap_mem (ih _ _ _ h)

theorem hasAdjDup_eq_false : ∀ (l : List VDChar), l.Nodup → hasAdjDup l = false
  | [], _ => rfl
  | [_], _ => rfl
  | a :: b :: r, h => by
    have h1 : a ≠ b := fun hab =>
      (List.nodup_cons.mp h).1 (by rw [hab]; exact List.mem_cons_self b r)
    simp [hasAdjDup, h1, hasAdjDup_eq_false (b :: r) (List.nodup_cons.mp h).2]

theorem rotLoop_eq_self (n : Nat) (l : List VDChar) (h : hasAdjDup l = false) :
    rotLoop n l = l := by
  cases n with
  | zero => rfl
  | succ m => simp [rotLoop, h]

theorem nodup_chain_ne : ∀ (l : List VDChar), l.Nodup →
    l.Chain' (fun a b => a ≠ b)
  | [], _ => List.chain'_nil
  | [_], _ => by simp
  | a :: b :: r, h => by
    rw [List.chain'_cons]
    have h1 : a ≠ b := fun hab =>
      (List.nodup_cons.mp h).1 (by rw [hab]; exact List.mem_cons_self b r)
    exact ⟨h1, nodup_chain_ne (b :: r) (List.nodup_cons.mp h).2⟩

theorem u8_mod_val_lt (x : Nat) :
    (VDChar.u8 (x % VDS_ALLOWED.length)).val < VDS_ALLOWED.length := by
  have hx : x % VDS_ALLOWED.length < VDS_ALLOWED.length :=
    Nat.mod_lt _ (by rw [VDS_len]; omega)
  have h256 : x % VDS_ALLOWED.length % 256 = x % VDS_ALLOWED.length :=
    Nat.mod_eq_of_lt (by rw [VDS_len] at hx ⊢; omega)
  simpa [VDChar.u8, h256] using hx

theorem wrLoop_length (cfg : VDGenerator) (rng : Rng) :
    ∀ (fuel k : Nat) (acc : List VDChar) (last : Option VDChar)
      (res : List VDChar) (k2 : Nat),
      wrLoop cfg rng fuel k acc last = some (res, k2) → acc.length ≤ cfg.len →
      res.length = cfg.len := by
  intro fuel
  induction fuel with
  | zero =>
    intro k acc last res k2 h hle
    simp only [wrLoop] at h
    split at h
    · exact absurd h (by simp)
    · rename_i hnlt
      cases h
      omega
  | succ m ih =>
    intro k acc last res k2 h hle
    simp only [wrLoop] at h
    split at h
    · rename_i hlt
      split at h
      · exact ih _ _ _ _ _ h hle
      · exact ih _ _ _ _ _ h (by simp; omega)
    · rename_i hnlt
      cases h
      omega

theorem wrLoop_val_lt (cfg : VDGenerator) (rng : Rng) :
    ∀ (fuel k : Nat) (acc : List VDChar) (last : Option VDChar)
      (res : List VDChar) (k2 : Nat),
      wrLoop cfg rng fuel k acc last = some (res, k2) →
      (∀ v ∈ acc, v.val < VDS_ALLOWED.length) →
      ∀ v ∈ res, v.val < VDS_ALLOWED.length := by
  intro fuel
  induction fuel with
  | zero =>
    intro k acc last res k2 h hacc
    simp only [wrLoop] at h
    split at h
    · exact absurd h (by simp)
    · cases h; exact hacc
  | succ m ih =>
    intro k acc last res k2 h hacc
    simp only [wrLoop] at h
    split at h
    · split at h
      · exact ih _ _ _ _ _ h hacc
      · refine ih _ _ _ _ _ h ?_
        intro v hv
        rcases List.mem_append.mp hv with hv2 | hv2
        · exact hacc v hv2
        · rw [List.mem_singleton.mp hv2]
          exact u8_mod_val_lt _
    · cases h; exact hacc

theorem wrLoop_chain (cfg : VDGenerator) (rng : Rng)
    (hadj : cfg.no_adjacent_repeats = true) :
    ∀ (fuel k : Nat) (acc : List VDChar) (last : Option VDChar)
      (res : List VDChar) (k2 : Nat),
      wrLoop cfg rng fuel k acc last = some (res, k2) →
      acc.getLast? = last → acc.Chain' (fun a b => a ≠ b) →
      res.Chain' (fun a b => a ≠ b) := by
  intro fuel
  induction fuel with
  | zero =>
    intro k acc last res k2 h hlast hch
    simp only [wrLoop] at h
    split at h
    · exact absurd h (by simp)
    · cases h; exact hch
  | succ m ih =>
    intro k acc last res k2 h hlast hch
    simp only [wrLoop] at h
    split at h
    · split at h
      · exact ih _ _ _ _ _ h hlast hch
      · rename_i hcond
        refine ih _ _ _ _ _ h (List.getLast?_concat _) ?_
        rw [List.chain'_append]
        refine ⟨hch, by simp, ?_⟩
        intro x hx y hy
        rw [List.head?_cons, Option.mem_some_iff] at hy
        subst hy
        intro hxy
        apply hcond
        refine ⟨hadj, ?_⟩
        rw [Option.mem_def] at hx
        rw [← hlast, hx, hxy]
    · cases h; exact hch

theorem wrLoop_terminates (cfg : VDGenerator) (rng : Rng)
    (hadj : cfg.no_adjacent_repeats = false) :
    ∀ (fuel k : Nat) (acc : List VDChar) (last : Option VDChar),
      cfg.len ≤ acc.length + fuel →
      ∃ res k2, wrLoop cfg rng fuel k acc last = some (res, k2) := by
  intro fuel
  induction fuel with
  | zero =>
    intro k acc last hle
    refine ⟨acc, k, ?_⟩
    simp only [wrLoop]
    rw [if_neg (by omega)]
  | succ m ih =>
    intro k acc last hle
    by_cases hlt : acc.length < cfg.len
    · have hstep := ih (k + 1)
        (acc ++ [VDChar.u8 (next_u32 rng k % VDS_ALLOWED.length)])
        (some (VDChar.u8 (next_u32 rng k % VDS_ALLOWED.length)))
        (by simp; omega)
      obtain ⟨res, k2, hres⟩ := hstep
      refine ⟨res, k2, ?_⟩
      simp only [wrLoop]
      rw [if_pos hlt, if_neg (by simp [hadj]), hres]
    · exact ⟨acc, k, by simp only [wrLoop]; rw [if_neg hlt]⟩

/-! Counting lemmas for the uniformity analysis of the index draws. -/

theorem count_congr_pred (p q : Nat → Prop) [DecidablePred p] [DecidablePred q]
    (h : ∀ v, p v ↔ q v) (n : Nat) : Nat.count p n = Nat.count q n := by
  induction n with
  | zero => simp [Nat.count_zero]
  | succ m ih =>
    rw [Nat.count_succ, Nat.count_succ, ih]
    by_cases hp : p m
    · rw [if_pos hp, if_pos ((h m).mp hp)]
    · rw [if_neg hp, if_neg (fun hq => hp ((h m).mpr hq))]

theorem count_mod_formula (m : Nat) (hm : 0 < m) (r : Nat) (hr : r < m) :
    ∀ n, Nat.count (fun v => v % m = r) n
      = n / m + if r < n % m then 1 else 0 := by
  intro n
  induction n with
  | zero => simp [Nat.count_zero]
  | succ n ih =>
    rw [Nat.count_succ, ih, Nat.succ_div]
    have hnm : n % m < m := Nat.mod_lt _ hm
    by_cases hend : n % m + 1 = m
    · have hdvd : m ∣ n + 1 := by
        refine ⟨n / m + 1, ?_⟩
        have hd := Nat.div_add_mod n m
        rw [Nat.mul_add, Nat.mul_one]
        omega
      have hmod0 : (n + 1) % m = 0 := Nat.mod_eq_zero_of_dvd hdvd
      rw [if_pos hdvd, hmod0]
      split_ifs <;> omega
    · have hlt : n % m + 1 < m := by omega
      have hmod : (n + 1) % m = n % m + 1 := by
        have h2 : (n + 1) % m = (n % m + 1 % m) % m := Nat.add_mod n 1 m
        have h1m : 1 % m = 1 := Nat.mod_eq_of_lt (by omega)
        rw [h2, h1m, Nat.mod_eq_of_lt hlt]
      have hndvd : ¬ m ∣ n + 1 := by
        intro hd
        have h0 := Nat.mod_eq_zero_of_dvd hd
        omega
      rw [if_neg hndvd, hmod]
      split_ifs <;> omega

theorem u32Count_wrDraw (r : Nat) (hr : r < 31) :
    u32Count wrDraw r = 2 ^ 32 / 31 + if r < 4 then 1 else 0 := by
  rw [u32Count,
    count_congr_pred (fun v => wrDraw v = r) (fun v => v % 31 = r)
      (fun v => by unfold wrDraw; rw [VDS_len]),
    count_mod_formula 31 (by omega) r hr]
  have h4 : (2 : Nat) ^ 32 % 31 = 4 := by norm_num
  rw [h4]

theorem u32Count_fyDraw (i r : Nat) (hi : i < 31) (hir : i ≤ r) (hr : r < 31) :
    u32Count (fyDraw i) r
      = 2 ^ 32 / (31 - i) + if r - i < 2 ^ 32 % (31 - i) then 1 else 0 := by
  rw [u32Count,
    count_congr_pred (fun v => fyDraw i v = r) (fun v => v % (31 - i) = r - i)
      (fun v => by
        unfold fyDraw
        rw [VDS_len]
        generalize v % (31 - i) = x
        omega),
    count_mod_formula (31 - i) (by omega) (r - i) (by omega)]

theorem fyResult_spec (cfg : VDGenerator) (rng : Rng)
    (hlen : cfg.len ≤ VDS_ALLOWED.length) :
    fyResult cfg rng = (fyLoop rng cfg.len 0 pool0).take cfg.len
    ∧ (fyResult cfg rng).Nodup
    ∧ (fyResult cfg rng).length = cfg.len
    ∧ ∀ v ∈ fyResult cfg rng, v.val < VDS_ALLOWED.length := by
  have hnd : ((fyLoop rng cfg.len 0 pool0).take cfg.len).Nodup :=
    (List.take_sublist _ _).nodup (fyLoop_nodup rng _ _ _ pool0_nodup)
  have heq : fyResult cfg rng = (fyLoop rng cfg.len 0 pool0).take cfg.len := by
    unfold fyResult
    split
    · exact rotLoop_eq_self _ _ (hasAdjDup_eq_false _ hnd)
    · rfl
  refine ⟨heq, heq ▸ hnd, ?_, ?_⟩
  · rw [heq, List.length_take, fyLoop_length, pool0_length]
    rw [VDS_len] at hlen
    omega
  · intro v hv2
    rw [heq] at hv2
    exact pool0_val_lt v (fyLoop_mem rng _ _ _ _ ((List.take_sublist _ _).subset hv2))

/-! The claims. -/

/-- C1 (counterexample): the claim asserts `generate` terminates for every
randomness source, explicitly including `no_adjacent_repeats` set,
`no_repeats` unset, length 2, and a source returning the same value on
every call.  With the constant-zero source the rejection loop redraws the
character equal to the previous one forever, so no fuel bound makes the
model return: `generate` does not terminate there. -/
theorem C1_cex :
    ¬ ∃ fuel r,
      VDGenerator.generate ⟨2, true, false⟩ (fun _ => 0) fuel = some r := by
  have stuck : ∀ fuel k,
      wrLoop ⟨2, true, false⟩ (fun _ => 0) fuel k
        [VDChar.u8 0] (some (VDChar.u8 0)) = none := by
    intro fuel
    induction fuel with
    | zero => intro k; simp [wrLoop]
    | succ m ih => intro k; simp [wrLoop, next_u32, ih]
  rintro ⟨fuel, r, h⟩
  have hgen : VDGenerator.generate ⟨2, true, false⟩ (fun _ => 0) fuel = none := by
    unfold VDGenerator.generate
    rw [if_neg (by simp), if_neg (by simp)]
    cases fuel with
    | zero => rfl
    | succ m =>
      have h1 : wrLoop ⟨2, true, false⟩ (fun _ => 0) (m + 1) 0 [] none
          = wrLoop ⟨2, true, false⟩ (fun _ => 0) m 1
              [VDChar.u8 0] (some (VDChar.u8 0)) := by
        simp [wrLoop, next_u32]
      rw [h1, stuck m 1]
      rfl
  rw [h] at hgen
  cases hgen

/-- C1 (amended): for every valid configuration and every randomness
source, whenever `generate` returns (under any fuel bound) it returns `Ok`
with a `VDString` of exactly the configured length whose characters all
render into the alphabet; and termination is guaranteed whenever
`no_repeats` is set or `no_adjacent_repeats` is not set.  (The original
universal-termination claim fails for adversarial sources in the
with-replacement rejection branch; see the counterexample.) -/
theorem C1_thm (cfg : VDGenerator) (rng : Rng) (fuel : Nat)
    (hv : ¬(cfg.no_repeats = true ∧ VDS_ALLOWED.length < cfg.len)) :
    (∀ r, VDGenerator.generate cfg rng fuel = some r →
      ∃ vs, r = .ok vs ∧ vs.chars.length = cfg.len ∧
        ∀ v ∈ vs.chars, v.as_char ∈ VDS_ALLOWED)
    ∧ ((cfg.no_repeats = true ∨ cfg.no_adjacent_repeats = false) →
      ∃ fuel2 r, VDGenerator.generate cfg rng fuel2 = some r) := by
  constructor
  · intro r h
    unfold VDGenerator.generate at h
    rw [if_neg hv] at h
    by_cases hnr : cfg.no_repeats = true
    · rw [if_pos hnr] at h
      cases h
      have hlen : cfg.len ≤ VDS_ALLOWED.length := by
        by_contra hcon
        exact hv ⟨hnr, by omega⟩
      obtain ⟨-, -, hl, hm⟩ := fyResult_spec cfg rng hlen
      exact ⟨_, rfl, hl, fun v hv2 => as_char_mem (hm v hv2)⟩
    · rw [if_neg hnr] at h
      cases hw : wrLoop cfg rng fuel 0 [] none with
      | none => rw [hw] at h; simp at h
      | some p =>
        rw [hw] at h
        simp only [Option.map_some'] at h
        cases h
        refine ⟨VDString.new p.1, rfl, ?_, ?_⟩
        · exact wrLoop_length cfg rng fuel 0 [] none p.1 p.2 (by rw [hw]) (by simp)
        · intro v hv2
          exact as_char_mem
            (wrLoop_val_lt cfg rng fuel 0 [] none p.1 p.2 (by rw [hw]) (by simp) v hv2)
  · intro hcase
    by_cases hnr : cfg.no_repeats = true
    · refine ⟨fuel, .ok (VDString.new (fyResult cfg rng)), ?_⟩
      unfold VDGenerator.generate
      rw [if_neg hv, if_pos hnr]
    · have hadj : cfg.no_adjacent_repeats = false := by
        rcases hcase with h | h
        · exact absurd h hnr
        · exact h
      obtain ⟨res, k2, hres⟩ :=
        wrLoop_terminates cfg rng hadj cfg.len 0 [] none (by simp)
      refine ⟨cfg.len, .ok (VDString.new res), ?_⟩
      unfold VDGenerator.generate
      rw [if_neg hv, if_neg hnr, hres]
      rfl

/-- C1 witness: the default configuration with the constant source returns
`Ok` at fuel 6, and the amended theorem applies to it. -/
theorem C1_wit :
    (∀ r, VDGenerator.generate ⟨6, false, false⟩ (fun _ => 0) 6 = some r →
      ∃ vs, r = .ok vs ∧ vs.chars.length = (⟨6, false, false⟩ : VDGenerator).len ∧
        ∀ v ∈ vs.chars, v.as_char ∈ VDS_ALLOWED)
    ∧ (((⟨6, false, false⟩ : VDGenerator).no_repeats = true ∨
        (⟨6, false, false⟩ : VDGenerator).no_adjacent_repeats = false) →
      ∃ fuel2 r, VDGenerator.generate ⟨6, false, false⟩ (fun _ => 0) fuel2 = some r) :=
  C1_thm ⟨6, false, false⟩ (fun _ => 0) 6 (by simp)

/-- C2: parsing a string succeeds iff every character is an alphabet
member, and on success the cached rendered text equals the input exactly
(round-trip identity). -/
theorem C2_thm (s : List Char) :
    ((∃ vs, VDString.from_str s = .ok vs) ↔ ∀ c ∈ s, (VDChar.new c).isSome = true)
    ∧ ∀ vs, VDString.from_str s = .ok vs → vs.cache = s := by
  constructor
  · rw [← parseVD_ok_iff]
    constructor
    · rintro ⟨vs, hvs⟩
      unfold VDString.from_str at hvs
      cases hps : parseVD s with
      | error e => rw [hps] at hvs; simp [Except.map] at hvs
      | ok l => exact ⟨l, rfl⟩
    · rintro ⟨l, hl⟩
      exact ⟨VDString.new l, by simp [VDString.from_str, hl, Except.map]⟩
  · intro vs hvs
    unfold VDString.from_str at hvs
    cases hps : parseVD s with
    | error e => rw [hps] at hvs; simp [Except.map] at hvs
    | ok l =>
      rw [hps] at hvs
      simp only [Except.map] at hvs
      cases hvs
      exact parseVD_map s l hps

/-- C2 witness: instantiation at the valid input AB. -/
theorem C2_wit :
    ((∃ vs, VDString.from_str ['A', 'B'] = .ok vs) ↔
      ∀ c ∈ ['A', 'B'], (VDChar.new c).isSome = true)
    ∧ ∀ vs, VDString.from_str ['A', 'B'] = .ok vs → vs.cache = ['A', 'B'] :=
  C2_thm ['A', 'B']

/-- C3: with `no_repeats` set and length at most the alphabet size,
`generate` returns `Ok` for every randomness source and every fuel bound,
and the symbols of the result are pairwise distinct. -/
theorem C3_thm (cfg : VDGenerator) (rng : Rng) (fuel : Nat)
    (h1 : cfg.no_repeats = true) (h2 : cfg.len ≤ VDS_ALLOWED.length) :
    ∃ vs, VDGenerator.generate cfg rng fuel = some (.ok vs) ∧ vs.chars.Nodup := by
  refine ⟨VDString.new (fyResult cfg rng), ?_, ?_⟩
  · unfold VDGenerator.generate
    rw [if_neg (fun hc => absurd hc.2 (Nat.not_lt.mpr h2)), if_pos h1]
  · exact (fyResult_spec cfg rng h2).2.1

/-- C3 witness: instantiation at length 4, `no_repeats` set, the constant
source. -/
theorem C3_wit :
    ∃ vs, VDGenerator.generate ⟨4, false, true⟩ (fun _ => 0) 0 = some (.ok vs) ∧
      vs.chars.Nodup :=
  C3_thm ⟨4, false, true⟩ (fun _ => 0) 0 rfl (by decide)

/-- C4: whenever `no_adjacent_repeats` is set, the length is at least 2,
and `generate` returns `Ok` (in either branch, including both flags
combined), no two consecutive symbols of the result are equal. -/
theorem C4_thm (cfg : VDGenerator) (rng : Rng) (fuel : Nat) (vs : VDString)
    (hadj : cfg.no_adjacent_repeats = true) (_hlen : 2 ≤ cfg.len)
    (h : VDGenerator.generate cfg rng fuel = some (.ok vs)) :
    vs.chars.Chain' (fun a b => a ≠ b) := by
  unfold VDGenerator.generate at h
  split at h
  · simp at h
  · rename_i hc
    split at h
    · rename_i hnr
      cases h
      have h2 : cfg.len ≤ VDS_ALLOWED.length := by
        by_contra hcon
        exact hc ⟨hnr, by omega⟩
      exact nodup_chain_ne _ (fyResult_spec cfg rng h2).2.1
    · cases hw : wrLoop cfg rng fuel 0 [] none with
      | none => rw [hw] at h; simp at h
      | some p =>
        rw [hw] at h
        simp only [Option.map_some'] at h
        cases h
        exact wrLoop_chain cfg rng hadj fuel 0 [] none p.1 p.2
          (by rw [hw]) rfl List.chain'_nil

/-- C4 witness: with length 3, `no_adjacent_repeats` set and the identity
source, `generate` returns the code ABC, whose consecutive symbols differ. -/
theorem C4_wit :
    (VDString.new [VDChar.u8 0, VDChar.u8 1, VDChar.u8 2]).chars.Chain'
      (fun a b => a ≠ b) :=
  C4_thm ⟨3, true, false⟩ (fun k => k) 5
    (VDString.new [VDChar.u8 0, VDChar.u8 1, VDChar.u8 2])
    rfl (by decide) rfl

/-- C5: `generate` returns `Err` iff `no_repeats` is set and the length
exceeds the alphabet size, in which case the error is
`LengthExceedsUniqueSet` carrying the configured length and the alphabet
size 31 and no `VDString` is produced; and in that case the result is the
same for every randomness source and fuel (no randomness is consumed). -/
theorem C5_thm (cfg : VDGenerator) (rng : Rng) (fuel : Nat) :
    (∀ e, VDGenerator.generate cfg rng fuel = some (.error e) ↔
      (cfg.no_repeats = true ∧ VDS_ALLOWED.length < cfg.len ∧
        e = .LengthExceedsUniqueSet cfg.len VDS_ALLOWED.length))
    ∧ (cfg.no_repeats = true → VDS_ALLOWED.length < cfg.len →
      ∀ (rng2 : Rng) (fuel2 : Nat),
        VDGenerator.generate cfg rng fuel = VDGenerator.generate cfg rng2 fuel2) := by
  constructor
  · intro e
    constructor
    · intro h
      unfold VDGenerator.generate at h
      split at h
      · rename_i hc
        cases h
        exact ⟨hc.1, hc.2, rfl⟩
      · split at h
        · simp at h
        · cases hw : wrLoop cfg rng fuel 0 [] none with
          | none => rw [hw] at h; simp at h
          | some p => rw [hw] at h; simp at h
    · rintro ⟨h1, h2, rfl⟩
      unfold VDGenerator.generate
      rw [if_pos ⟨h1, h2⟩]
  · intro h1 h2 rng2 fuel2
    unfold VDGenerator.generate
    rw [if_pos ⟨h1, h2⟩, if_pos ⟨h1, h2⟩]

/-- C5 witness: instantiation at length 32 with `no_repeats` set. -/
theorem C5_wit :
    (∀ e, VDGenerator.generate ⟨32, false, true⟩ (fun _ => 0) 0 = some (.error e) ↔
      ((⟨32, false, true⟩ : VDGenerator).no_repeats = true ∧
        VDS_ALLOWED.length < (⟨32, false, true⟩ : VDGenerator).len ∧
        e = .LengthExceedsUniqueSet (⟨32, false, true⟩ : VDGenerator).len
              VDS_ALLOWED.length))
    ∧ ((⟨32, false, true⟩ : VDGenerator).no_repeats = true →
      VDS_ALLOWED.length < (⟨32, false, true⟩ : VDGenerator).len →
      ∀ (rng2 : Rng) (fuel2 : Nat),
        VDGenerator.generate ⟨32, false, true⟩ (fun _ => 0) 0
          = VDGenerator.generate ⟨32, false, true⟩ rng2 fuel2) :=
  C5_thm ⟨32, false, true⟩ (fun _ => 0) 0

/-- C6 (counterexample): the claim asserts every random index draw gives
each target an equal number of `u32` preimages.  For the with-replacement
draw `value % 31` (which is also the Fisher-Yates draw at position 0) this
fails: since `2 ^ 32 % 31 = 4`, target 0 has one more preimage than
target 4. -/
theorem C6_cex : u32Count wrDraw 0 ≠ u32Count wrDraw 4 := by
  rw [u32Count_wrDraw 0 (by omega), u32Count_wrDraw 4 (by omega)]
  split_ifs <;> omega

/-- C6 (amended): every draw is near-uniform rather than exactly uniform:
for the Fisher-Yates draw at position `i` with target `r` in `[i, 31)` the
number of `u32` preimages is `2 ^ 32 / (31 - i)`, plus one exactly when
`r - i < 2 ^ 32 % (31 - i)`; hence any two targets of the same draw have
preimage counts differing by at most 1.  The with-replacement draw
likewise gives count `2 ^ 32 / 31` plus one exactly for targets below
`2 ^ 32 % 31 = 4`. -/
theorem C6_thm (i r : Nat) (hi : i < 31) (hir : i ≤ r) (hr : r < 31) :
    u32Count (fyDraw i) r
        = 2 ^ 32 / (31 - i) + (if r - i < 2 ^ 32 % (31 - i) then 1 else 0)
    ∧ (∀ r2, i ≤ r2 → r2 < 31 →
        u32Count (fyDraw i) r ≤ u32Count (fyDraw i) r2 + 1)
    ∧ u32Count wrDraw r = 2 ^ 32 / 31 + (if r < 4 then 1 else 0) := by
  refine ⟨u32Count_fyDraw i r hi hir hr, ?_, u32Count_wrDraw r hr⟩
  intro r2 h1 h2
  rw [u32Count_fyDraw i r hi hir hr, u32Count_fyDraw i r2 hi h1 h2]
  split_ifs <;> omega

/-- C6 witness: instantiation at Fisher-Yates position 0, target 0. -/
theorem C6_wit :
    u32Count (fyDraw 0) 0
        = 2 ^ 32 / (31 - 0) + (if 0 - 0 < 2 ^ 32 % (31 - 0) then 1 else 0)
    ∧ (∀ r2, 0 ≤ r2 → r2 < 31 →
        u32Count (fyDraw 0) 0 ≤ u32Count (fyDraw 0) r2 + 1)
    ∧ u32Count wrDraw 0 = 2 ^ 32 / 31 + (if 0 < 4 then 1 else 0) :=
  C6_thm 0 0 (by omega) (by omega) (by omega)

/-- C7: in the `no_repeats` branch (length at most 31) the defensive
rotation repair is vacuous: the adjacent-duplicate scan never fires, the
repair loop returns its input unchanged, and `generate` with both flags
set returns exactly the same result as with only `no_repeats` set, for
identical randomness. -/
theorem C7_thm (cfg : VDGenerator) (rng : Rng) (fuel : Nat)
    (h1 : cfg.no_repeats = true) (h2 : cfg.len ≤ VDS_ALLOWED.length) :
    rotLoop cfg.len ((fyLoop rng cfg.len 0 pool0).take cfg.len)
        = (fyLoop rng cfg.len 0 pool0).take cfg.len
    ∧ VDGenerator.generate ⟨cfg.len, true, cfg.no_repeats⟩ rng fuel
        = VDGenerator.generate ⟨cfg.len, false, cfg.no_repeats⟩ rng fuel := by
  have hnd : ((fyLoop rng cfg.len 0 pool0).take cfg.len).Nodup :=
    (List.take_sublist _ _).nodup (fyLoop_nodup rng _ _ _ pool0_nodup)
  have hrot := rotLoop_eq_self cfg.len _ (hasAdjDup_eq_false _ hnd)
  refine ⟨hrot, ?_⟩
  have e1 : fyResult ⟨cfg.len, true, cfg.no_repeats⟩ rng
      = (fyLoop rng cfg.len 0 pool0).take cfg.len := by
    unfold fyResult
    rw [if_pos rfl]
    exact hrot
  have e2 : fyResult ⟨cfg.len, false, cfg.no_repeats⟩ rng
      = (fyLoop rng cfg.len 0 pool0).take cfg.len := by
    unfold fyResult
    rw [if_neg (by simp)]
  unfold VDGenerator.generate
  dsimp only
  rw [if_neg (fun hc => absurd hc.2 (Nat.not_lt.mpr h2)), if_pos h1, e1,
    if_neg (fun hc => absurd hc.2 (Nat.not_lt.mpr h2)), if_pos h1, e2]

/-- C7 witness: instantiation at length 8 with `no_repeats` set. -/
theorem C7_wit :
    rotLoop (⟨8, false, true⟩ : VDGenerator).len
        ((fyLoop (fun _ => 0) (⟨8, false, true⟩ : VDGenerator).len 0 pool0).take
          (⟨8, false, true⟩ : VDGenerator).len)
        = (fyLoop (fun _ => 0) (⟨8, false, true⟩ : VDGenerator).len 0 pool0).take
            (⟨8, false, true⟩ : VDGenerator).len
    ∧ VDGenerator.generate
          ⟨(⟨8, false, true⟩ : VDGenerator).len, true,
            (⟨8, false, true⟩ : VDGenerator).no_repeats⟩ (fun _ => 0) 0
        = VDGenerator.generate
            ⟨(⟨8, false, true⟩ : VDGenerator).len, false,
              (⟨8, false, true⟩ : VDGenerator).no_repeats⟩ (fun _ => 0) 0 :=
  C7_thm ⟨8, false, true⟩ (fun _ => 0) 0 rfl (by decide)

/-- C8: parsing any string whose leftmost non-member character is `c`
fails with `InvalidChar c` (validation is left to right and aborts at the
first non-member). -/
theorem C8_thm (s1 : List Char) (c : Char) (s2 : List Char)
    (h1 : ∀ a ∈ s1, (VDChar.new a).isSome = true) (h2 : VDChar.new c = none) :
    VDString.from_str (s1 ++ c :: s2) = .error (.InvalidChar c) := by
  unfold VDString.from_str
  rw [parseVD_leftmost s1 c s2 h1 h2]
  rfl

/-- C8 witness: parsing HELLO! reports the first excluded character, the
letter L (H and E are members; L is absent from the alphabet). -/
theorem C8_wit :
    VDString.from_str (['H', 'E'] ++ 'L' :: ['L', 'O', '!'])
      = .error (.InvalidChar 'L') :=
  C8_thm ['H', 'E'] 'L' ['L', 'O', '!'] (by decide) (by decide)

/-- C9: `VDChar::new c` succeeds iff `c` is literally one of the 31
allowed characters (case-sensitive); on success `as_char` returns `c`
itself; and every lowercase letter as well as each of O, 0, I, 1 is
rejected. -/
theorem C9_thm (c : Char) :
    ((VDChar.new c).isSome = true ↔ c ∈ VDS_ALLOWED)
    ∧ (∀ v, VDChar.new c = some v → v.as_char = c)
    ∧ ((('a' ≤ c ∧ c ≤ 'z') ∨ c = 'O' ∨ c = '0' ∨ c = 'I' ∨ c = '1') →
      VDChar.new c = none) := by
  refine ⟨new_isSome_iff c, fun v hv => (new_some_spec hv).2, ?_⟩
  intro hbad
  rw [← Option.not_isSome_iff_eq_none, new_isSome_iff]
  intro hmem
  have hlow : ∀ x ∈ VDS_ALLOWED, x < 'a' := by decide
  rcases hbad with ⟨ha, _⟩ | rfl | rfl | rfl | rfl
  · exact absurd ha (not_le.mpr (hlow c hmem))
  · exact absurd hmem (by decide)
  · exact absurd hmem (by decide)
  · exact absurd hmem (by decide)
  · exact absurd hmem (by decide)

/-- C9 witness: instantiation at the member character A. -/
theorem C9_wit :
    (((VDChar.new 'A').isSome = true) ↔ 'A' ∈ VDS_ALLOWED)
    ∧ (∀ v, VDChar.new 'A' = some v → v.as_char = 'A')
    ∧ ((('a' ≤ 'A' ∧ 'A' ≤ 'z') ∨ 'A' = 'O' ∨ 'A' = '0' ∨ 'A' = 'I' ∨ 'A' = '1') →
      VDChar.new 'A' = none) :=
  C9_thm 'A'

/-- C10: every `VDChar` produced by the crate's operations (validated
construction, parsing, generation) has index below the alphabet length, so
`as_char`'s array access is always in bounds and rendering is total; and
under the length guard each Fisher-Yates modulus `31 - i` is nonzero with
every swap index `i + v % (31 - i)` inside the pool's bounds. -/
theorem C10_thm :
    (∀ (c : Char) (v : VDChar), VDChar.new c = some v →
      v.val < VDS_ALLOWED.length)
    ∧ (∀ (s : List Char) (vs : VDString), VDString.from_str s = .ok vs →
      ∀ v ∈ vs.chars, v.val < VDS_ALLOWED.length)
    ∧ (∀ (cfg : VDGenerator) (rng : Rng) (fuel : Nat) (vs : VDString),
      VDGenerator.generate cfg rng fuel = some (.ok vs) →
      ∀ v ∈ vs.chars, v.val < VDS_ALLOWED.length ∧ v.as_char ∈ VDS_ALLOWED)
    ∧ (∀ i len, i < len → len ≤ VDS_ALLOWED.length →
      0 < VDS_ALLOWED.length - i ∧ ∀ v, fyDraw i v < VDS_ALLOWED.length) := by
  refine ⟨fun c v h => (new_some_spec h).1, ?_, ?_, ?_⟩
  · intro s vs hvs v hv2
    unfold VDString.from_str at hvs
    cases hps : parseVD s with
    | error e => rw [hps] at hvs; simp [Except.map] at hvs
    | ok l =>
      rw [hps] at hvs
      simp only [Except.map] at hvs
      cases hvs
      exact parseVD_val_lt s l hps v hv2
  · intro cfg rng fuel vs h v hv2
    have hval : v.val < VDS_ALLOWED.length := by
      unfold VDGenerator.generate at h
      split at h
      · simp at h
      · rename_i hc
        split at h
        · rename_i hnr
          cases h
          have h2 : cfg.len ≤ VDS_ALLOWED.length := by
            by_contra hcon
            exact hc ⟨hnr, by omega⟩
          exact (fyResult_spec cfg rng h2).2.2.2 v hv2
        · cases hw : wrLoop cfg rng fuel 0 [] none with
          | none => rw [hw] at h; simp at h
          | some p =>
            rw [hw] at h
            simp only [Option.map_some'] at h
            cases h
            exact wrLoop_val_lt cfg rng fuel 0 [] none p.1 p.2
              (by rw [hw]) (by simp) v hv2
    exact ⟨hval, as_char_mem hval⟩
  · intro i len hi hlen
    rw [VDS_len] at hlen ⊢
    constructor
    · omega
    · intro v
      unfold fyDraw
      rw [VDS_len]
      have hv : v % (31 - i) < 31 - i := Nat.mod_lt _ (by omega)
      omega

/-- C10 witness: instantiations at the character A, the length-1
generation with the constant source, and Fisher-Yates position 0 under
length 1. -/
theorem C10_wit :
    ((VDChar.u8 0).val < VDS_ALLOWED.length ∧
      (VDChar.u8 0).as_char ∈ VDS_ALLOWED)
    ∧ (0 < VDS_ALLOWED.length - 0 ∧ ∀ v, fyDraw 0 v < VDS_ALLOWED.length) :=
  ⟨C10_thm.2.2.1 ⟨1, false, false⟩ (fun _ => 0) 1
      (VDString.new [VDChar.u8 0]) rfl (VDChar.u8 0) (by decide),
    C10_thm.2.2.2 0 1 (by omega) (by decide)⟩

end VDS
